import Mathlib

/-!
Shallow embedding of the MecanikDev TextTokenizer
(Modern-Text-Tokenizer.hpp).  Byte strings are lists of natural
numbers, one per byte; the tokenizer state mirrors the fields of the
C++ class.  The index-based scanning loops of the source are embedded
as fuel-indexed structural recursions; the public wrappers supply
fuel equal to the text length, which is enough for every input, and
the general theorems are proved for every fuel value.
-/

namespace MecanikDev

/-- Byte length of a UTF-8 character declared by its lead byte
(utf8_char_length in the source); an invalid lead byte counts as a
single byte. -/
def utf8_char_length (c : Nat) : Nat :=
  if c &&& 0x80 = 0 then 1
  else if c &&& 0xE0 = 0xC0 then 2
  else if c &&& 0xF0 = 0xE0 then 3
  else if c &&& 0xF8 = 0xF0 then 4
  else 1

/-- ASCII punctuation test (is_ascii_punct in the source, which calls
std::ispunct on an unsigned char; in the C locale this is true exactly
for the four ASCII ranges below). -/
def is_ascii_punct (c : Nat) : Bool :=
  decide ((33 ≤ c ∧ c ≤ 47) ∨ (58 ≤ c ∧ c ≤ 64) ∨
    (91 ≤ c ∧ c ≤ 96) ∨ (123 ≤ c ∧ c ≤ 126))

/-- ASCII lowercasing (to_ascii_lower in the source, via std::tolower
in the C locale: only bytes 65..90 change). -/
def to_ascii_lower (c : Nat) : Nat :=
  if 65 ≤ c ∧ c ≤ 90 then c + 32 else c

/-- Loop body of normalize_token: lowercase ASCII bytes one at a time,
copy a declared multi-byte UTF-8 character through verbatim (clipped
at the end of the token, as the source clips at token.size()).  The
fuel argument only bounds the number of loop iterations; callers pass
the token length, which always suffices since every step consumes at
least one byte. -/
def normalize_loop : Nat → List Nat → List Nat
  | _, [] => []
  | 0, token => token
  | fuel + 1, c :: rest =>
    if c &&& 0x80 = 0 then
      to_ascii_lower c :: normalize_loop fuel rest
    else
      (c :: rest).take (utf8_char_length c) ++
        normalize_loop fuel ((c :: rest).drop (utf8_char_length c))

/-- normalize_token from the source: identity unless lowercasing is
enabled. -/
def normalize_token (lowercase : Bool) (token : List Nat) : List Nat :=
  if lowercase then normalize_loop token.length token else token

/-- State of a TextTokenizer object: the private fields of the C++
class.  The two unordered containers are embedded as an association
list (unique keys, assignment overwrites) and an ordered list. -/
structure TextTokenizer where
  delimiters : List Nat
  lowercase : Bool
  keep_punctuation : Bool
  split_on_punctuation : Bool
  vocab_to_id : List (List Nat × Int)
  id_to_vocab : List (List Nat)
  unk_token : List Nat
  pad_token : List Nat
  cls_token : List Nat
  sep_token : List Nat
  use_vocab : Bool
  unk_id : Int
  pad_id : Int
  cls_id : Int
  sep_id : Int

/-- The default-constructed tokenizer (TextTokenizer::TextTokenizer):
whitespace delimiters, all flags off, bracketed special-token strings,
no vocabulary, all special ids -1. -/
def TextTokenizer.init : TextTokenizer where
  delimiters := [32, 9, 10, 13, 12, 11]
  lowercase := false
  keep_punctuation := false
  split_on_punctuation := false
  vocab_to_id := []
  id_to_vocab := []
  unk_token := [91, 85, 78, 75, 93]
  pad_token := [91, 80, 65, 68, 93]
  cls_token := [91, 67, 76, 83, 93]
  sep_token := [91, 83, 69, 80, 93]
  use_vocab := false
  unk_id := -1
  pad_id := -1
  cls_id := -1
  sep_id := -1

/-- should_split_at from the source: the byte is a configured
delimiter, or punctuation splitting is on and the byte is ASCII
punctuation. -/
def should_split_at (st : TextTokenizer) (c : Nat) : Bool :=
  st.delimiters.contains c || (st.split_on_punctuation && is_ascii_punct c)

/-- The inner while loop of tokenize (source lines 328-335): consume a
maximal run of splitting bytes starting at index i, emitting a
one-byte token for every punctuation byte that passes the guard
i > start + (i - start > 0 ? 1 : 0), where start is the (stale) token
start cursor.  Returns the index just past the run together with the
tokens emitted inside the loop, in order. -/
def punct_run (st : TextTokenizer) (text : List Nat) (fuel start i : Nat) :
    Nat × List (List Nat) :=
  match fuel with
  | 0 => (i, [])
  | fuel + 1 =>
    if i < text.length ∧ should_split_at st (text.getD i 0) = true then
      ((punct_run st text fuel start (i + 1)).1,
        (if st.keep_punctuation && is_ascii_punct (text.getD i 0) &&
            decide (start + (if 0 < i - start then 1 else 0) < i) then
          [normalize_token st.lowercase [text.getD i 0]]
        else []) ++ (punct_run st text fuel start (i + 1)).2)
    else (i, [])

/-- The outer scanning loop of tokenize (source lines 302-341) plus
the trailing-token step (source lines 344-349): skip multi-byte
characters whole, and at an ASCII splitting byte emit the pending
slice, then the splitting byte itself when it is kept punctuation,
then the tokens of the delimiter run, then continue after the run. -/
def tokenize_go (st : TextTokenizer) (text : List Nat) (fuel start i : Nat) :
    List (List Nat) :=
  if i < text.length then
    match fuel with
    | 0 => []
    | fuel + 1 =>
      if text.getD i 0 &&& 0x80 ≠ 0 then
        tokenize_go st text fuel start (i + utf8_char_length (text.getD i 0))
      else if should_split_at st (text.getD i 0) then
        (if start < i then
          [normalize_token st.lowercase ((text.drop start).take (i - start))]
        else []) ++
        (if st.keep_punctuation && is_ascii_punct (text.getD i 0) then
          [normalize_token st.lowercase [text.getD i 0]]
        else []) ++
        (punct_run st text (fuel + 1) start i).2 ++
        tokenize_go st text fuel (punct_run st text (fuel + 1) start i).1
          (punct_run st text (fuel + 1) start i).1
      else
        tokenize_go st text fuel start (i + 1)
  else if start < text.length then
    [normalize_token st.lowercase (text.drop start)]
  else []

/-- tokenize from the source. -/
def tokenize (st : TextTokenizer) (text : List Nat) : List (List Nat) :=
  tokenize_go st text text.length 0 0

/-- The inner while loop of count_tokens (source lines 485-491),
mirroring punct_run with a counter in place of the token list. -/
def count_run (st : TextTokenizer) (text : List Nat) (fuel start i : Nat) :
    Nat × Nat :=
  match fuel with
  | 0 => (i, 0)
  | fuel + 1 =>
    if i < text.length ∧ should_split_at st (text.getD i 0) = true then
      ((count_run st text fuel start (i + 1)).1,
        (if st.keep_punctuation && is_ascii_punct (text.getD i 0) &&
            decide (start + (if 0 < i - start then 1 else 0) < i) then
          1
        else 0) + (count_run st text fuel start (i + 1)).2)
    else (i, 0)

/-- The outer loop of count_tokens (source lines 472-500), mirroring
tokenize_go with counters in place of token lists. -/
def count_go (st : TextTokenizer) (text : List Nat) (fuel start i : Nat) : Nat :=
  if i < text.length then
    match fuel with
    | 0 => 0
    | fuel + 1 =>
      if text.getD i 0 &&& 0x80 ≠ 0 then
        count_go st text fuel start (i + utf8_char_length (text.getD i 0))
      else if should_split_at st (text.getD i 0) then
        (if start < i then 1 else 0) +
          ((if st.keep_punctuation && is_ascii_punct (text.getD i 0) then 1
            else 0) +
            ((count_run st text (fuel + 1) start i).2 +
              count_go st text fuel (count_run st text (fuel + 1) start i).1
                (count_run st text (fuel + 1) start i).1))
      else
        count_go st text fuel start (i + 1)
  else if start < text.length then 1 else 0

/-- count_tokens from the source. -/
def count_tokens (st : TextTokenizer) (text : List Nat) : Nat :=
  count_go st text text.length 0 0

/-- Trailing-whitespace trimming done by load_vocab on each line
(token.erase(token.find_last_not_of(" \t\r\n") + 1)). -/
def rtrim (t : List Nat) : List Nat :=
  (t.reverse.dropWhile (fun c => decide (c = 32 ∨ c = 9 ∨ c = 13 ∨ c = 10))).reverse

/-- Lookup in the embedded unordered_map (vocab_to_id_.find). -/
def lookup_vocab (m : List (List Nat × Int)) (k : List Nat) : Option Int :=
  (m.find? (fun p => decide (p.1 = k))).map Prod.snd

/-- Assignment into the embedded unordered_map
(vocab_to_id_[token] = id): overwrite an existing key or append a new
entry. -/
def assoc_insert (m : List (List Nat × Int)) (k : List Nat) (v : Int) :
    List (List Nat × Int) :=
  if (lookup_vocab m k).isSome then
    m.map (fun p => if p.1 = k then (k, v) else p)
  else m ++ [(k, v)]

/-- The special-token id updates shared by load_vocab (source lines
206-209) and build_vocab_from_text (source lines 258-261): an
if/else-if chain comparing the inserted token against the four
configured special strings. -/
def set_special_ids (st : TextTokenizer) (token : List Nat) (id : Int) :
    TextTokenizer :=
  if token = st.unk_token then { st with unk_id := id }
  else if token = st.pad_token then { st with pad_id := id }
  else if token = st.cls_token then { st with cls_id := id }
  else if token = st.sep_token then { st with sep_id := id }
  else st

/-- Processing of one line inside load_vocab (source lines 197-213):
trim trailing whitespace, skip empty lines, otherwise insert with the
next id (the running counter always equals id_to_vocab_.size()) and
record special-token ids. -/
def load_vocab_step (st : TextTokenizer) (line : List Nat) : TextTokenizer :=
  let token := rtrim line
  if token = [] then st
  else
    let id : Int := st.id_to_vocab.length
    set_special_ids
      { st with
        vocab_to_id := assoc_insert st.vocab_to_id token id
        id_to_vocab := st.id_to_vocab ++ [token] }
      token id

/-- load_vocab from the source, over the abstract ordered list of
lines of the vocabulary file (file I/O is the excluded collaborator;
a successfully opened file is exactly its list of lines).  Both maps
are cleared first; the special ids are NOT reset. -/
def load_vocab (st : TextTokenizer) (lines : List (List Nat)) : TextTokenizer :=
  let st1 := { st with vocab_to_id := [], id_to_vocab := [] }
  let st2 := lines.foldl load_vocab_step st1
  { st2 with use_vocab := true }

/-- Insertion of one special token inside build_vocab_from_text
(source lines 252-263): insert only when absent, then record its
special id. -/
def build_special_step (st : TextTokenizer) (token : List Nat) : TextTokenizer :=
  if (lookup_vocab st.vocab_to_id token).isSome then st
  else
    let id : Int := st.id_to_vocab.length
    set_special_ids
      { st with
        vocab_to_id := assoc_insert st.vocab_to_id token id
        id_to_vocab := st.id_to_vocab ++ [token] }
      token id

/-- Insertion of one frequency-sorted regular token inside
build_vocab_from_text (source lines 266-275), threading the added
counter; the capacity bound is max_vocab_size minus the four special
tokens. -/
def build_regular_step (max_vocab_size : Int) (p : TextTokenizer × Int)
    (token : List Nat) : TextTokenizer × Int :=
  if (lookup_vocab p.1.vocab_to_id token).isNone ∧ p.2 < max_vocab_size - 4 then
    ({ p.1 with
        vocab_to_id := assoc_insert p.1.vocab_to_id token p.1.id_to_vocab.length
        id_to_vocab := p.1.id_to_vocab ++ [token] },
      p.2 + 1)
  else p

/-- The vocabulary-building phase of build_vocab_from_text (source
lines 246-278).  The frequency counting and sort (source lines
223-244) iterate an unordered_map, whose order the language does not
specify, so the resulting candidate list sorted_tokens is taken here
as a parameter and the theorems quantify over it. -/
def build_vocab_core (st : TextTokenizer) (sorted_tokens : List (List Nat))
    (max_vocab_size : Int) : TextTokenizer :=
  let st1 := { st with vocab_to_id := [], id_to_vocab := [] }
  let st2 := [st.pad_token, st.unk_token, st.cls_token, st.sep_token].foldl
    build_special_step st1
  let st3 := (sorted_tokens.foldl (build_regular_step max_vocab_size) (st2, 0)).1
  { st3 with use_vocab := true }

/-- encode from the source: tokenize, then positional indices without
a vocabulary, otherwise map lookup with the unknown id as fallback. -/
def encode (st : TextTokenizer) (text : List Nat) : List Int :=
  let tokens := tokenize st text
  if st.use_vocab then
    tokens.map (fun tok =>
      match lookup_vocab st.vocab_to_id tok with
      | some id => id
      | none => st.unk_id)
  else
    (List.range tokens.length).map (fun i => Int.ofNat i)

/-- Vector indexing id_to_vocab_[id], total with default []; decode
only uses it under its range guard. -/
def vocab_at (st : TextTokenizer) (id : Int) : List Nat :=
  st.id_to_vocab.getD id.toNat []

/-- The output-assembly loop of decode (source lines 388-399): the
first flag suppresses the separating space before the first appended
token. -/
def decode_loop (st : TextTokenizer) : List Int → Bool → List Nat
  | [], _ => []
  | id :: rest, first =>
    if 0 ≤ id ∧ id < (st.id_to_vocab.length : Int) then
      if vocab_at st id = st.pad_token then decode_loop st rest first
      else (if first then [] else [32]) ++ vocab_at st id ++ decode_loop st rest false
    else decode_loop st rest first

/-- decode from the source. -/
def decode (st : TextTokenizer) (ids : List Int) : List Nat :=
  if st.use_vocab then decode_loop st ids true else []

/-- encode_sequence from the source.  The truncation-only path calls
std::vector::resize(max_length) with an int argument: a negative
max_length converts to an enormous size_t, which exceeds the vector's
max_size and raises std::length_error; this is embedded as the error
case.  The special-token path never errors. -/
def encode_sequence (st : TextTokenizer) (text : List Nat) (max_length : Int)
    (add_special_tokens : Bool) : Except String (List Int) :=
  let token_ids := encode st text
  if !add_special_tokens || !st.use_vocab then
    if (token_ids.length : Int) > max_length then
      if max_length < 0 then Except.error "length_error"
      else Except.ok (token_ids.take max_length.toNat)
    else Except.ok token_ids
  else
    let ml1 := if 0 ≤ st.cls_id then max_length - 1 else max_length
    let available := ml1 - (if 0 ≤ st.sep_id then 1 else 0)
    let content := token_ids.take (min (token_ids.length : Int) available).toNat
    Except.ok ((if 0 ≤ st.cls_id then [st.cls_id] else []) ++ content ++
      (if 0 ≤ st.sep_id then [st.sep_id] else []))

/-! Spec-side definitions, written from the specification's words, to
be compared with the embedded source functions. -/

/-- Joining a list of tokens with a single separating space and no
leading or trailing space, as the specification describes decode's
output. -/
def space_join : List (List Nat) → List Nat
  | [] => []
  | [t] => t
  | t :: u :: ts => t ++ 32 :: space_join (u :: ts)

/-- The token strings decode keeps, as the specification describes
them: ids processed in order, out-of-range ids skipped, pad tokens
skipped, every other token kept. -/
def decode_tokens (st : TextTokenizer) (ids : List Int) : List (List Nat) :=
  ids.filterMap (fun id =>
    if 0 ≤ id ∧ id < (st.id_to_vocab.length : Int) then
      if vocab_at st id = st.pad_token then none else some (vocab_at st id)
    else none)

/-- The association list pairing each entry of an ordered vocabulary
with its position, starting at offset k. -/
def enum_assoc_from (k : Nat) : List (List Nat) → List (List Nat × Int)
  | [] => []
  | t :: ts => (t, (k : Int)) :: enum_assoc_from (k + 1) ts

/-- The association list a consistent vocab_to_id must equal: each
token of id_to_vocab paired with its index. -/
def enum_assoc (l : List (List Nat)) : List (List Nat × Int) :=
  enum_assoc_from 0 l

/-- Consistency of the two vocabulary containers as the specification
states it: equal sizes, ids the contiguous integers 0..N-1 in
insertion order, and id_to_vocab inverting vocab_to_id. -/
def VocabConsistent (st : TextTokenizer) : Prop :=
  st.vocab_to_id.length = st.id_to_vocab.length ∧
  st.vocab_to_id.map Prod.snd =
    (List.range st.id_to_vocab.length).map Int.ofNat ∧
  ∀ p ∈ st.vocab_to_id, st.id_to_vocab[p.2.toNat]? = some p.1

/-- Structural validity of a byte sequence as UTF-8: every lead byte
is ASCII or in 192..247 and declares a length (2, 3 or 4) matched by
that many following continuation bytes (bytes in 128..191).
Code-point range checks are irrelevant to byte-level splitting and
are not modelled.  The fuel argument only bounds the number of
characters; the wrapper passes the byte length, which always
suffices. -/
def utf8_valid_go (fuel : Nat) (l : List Nat) : Bool :=
  match fuel, l with
  | _, [] => true
  | 0, _ :: _ => false
  | fuel + 1, c :: rest =>
    if c < 128 then utf8_valid_go fuel rest
    else if 192 ≤ c ∧ c < 248 then
      decide (utf8_char_length c - 1 ≤ rest.length) &&
        (List.range (utf8_char_length c - 1)).all
          (fun j => decide (128 ≤ rest.getD j 0 ∧ rest.getD j 0 < 192)) &&
        utf8_valid_go fuel (rest.drop (utf8_char_length c - 1))
    else false

/-- A byte sequence is valid UTF-8 when the scan with full fuel
accepts it. -/
def utf8_valid (l : List Nat) : Bool := utf8_valid_go l.length l

/-! Concrete states and byte strings used by the evidence theorems. -/

/-- Tokenizer configured with keep_punctuation and
split_on_punctuation, as in the claims about punctuation runs. -/
def ksp_state : TextTokenizer :=
  { TextTokenizer.init with keep_punctuation := true, split_on_punctuation := true }

/-- ksp_state with lowercasing also enabled. -/
def lksp_state : TextTokenizer := { ksp_state with lowercase := true }

/-- Default tokenizer with lowercasing enabled. -/
def lower_state : TextTokenizer := { TextTokenizer.init with lowercase := true }

/-- The bytes of the text Hello, world! (13 ASCII bytes). -/
def hello_world_bytes : List Nat :=
  [72, 101, 108, 108, 111, 44, 32, 119, 111, 114, 108, 100, 33]

/-- The UTF-8 bytes of the word café (the accented letter is the
two-byte sequence 195 169). -/
def cafe_bytes : List Nat := [99, 97, 102, 195, 169]

/-- Tokenizer after loading the two-line vocabulary [CLS], [SEP]. -/
def cls_sep_state : TextTokenizer :=
  load_vocab TextTokenizer.init [[91, 67, 76, 83, 93], [91, 83, 69, 80, 93]]

/-- Tokenizer after loading the three-line vocabulary [CLS], [SEP],
hi. -/
def vocab3_state : TextTokenizer :=
  load_vocab TextTokenizer.init
    [[91, 67, 76, 83, 93], [91, 83, 69, 80, 93], [104, 105]]

/-- C1: the claim says each ASCII punctuation byte inside a splitting
run becomes exactly one standalone token, so that !!! gives three
tokens of ! and Hello, world! gives hello , world !.  Evaluating the
embedded tokenize at those inputs shows the code disagrees: the guard
i > start + (i - start > 0 ? 1 : 0) drops the second byte of a run
that starts a token segment (!!! yields only two tokens) and emits
the run's first punctuation byte twice after a pending word of two or
more bytes (Hello, world! yields six tokens with a duplicated comma
and exclamation mark). -/
theorem spec_c1_evaluation :
    tokenize ksp_state [33, 33, 33] = [[33], [33]] ∧
    tokenize lksp_state hello_world_bytes =
      [[104, 101, 108, 108, 111], [44], [44],
        [119, 111, 114, 108, 100], [33], [33]] := by
  decide

/-- C4: after loading a vocabulary containing [UNK] and then loading a
second vocabulary without it, the unknown-token id keeps its stale
value 0 while [UNK] is absent from the installed vocabulary, because
load_vocab never resets the special ids; the claimed invariant (id is
-1 iff the string is absent) fails in this reachable state. -/
theorem spec_c4_evaluation :
    (load_vocab (load_vocab TextTokenizer.init [[91, 85, 78, 75, 93]])
        [[104, 101, 108, 108, 111]]).unk_id = 0 ∧
    lookup_vocab
      (load_vocab (load_vocab TextTokenizer.init [[91, 85, 78, 75, 93]])
        [[104, 101, 108, 108, 111]]).vocab_to_id
      [91, 85, 78, 75, 93] = none := by
  decide

/-- C2 counterexample: with [CLS] and [SEP] both in the vocabulary and
max_length = 0, encode_sequence still returns both marker ids, so the
returned length 2 exceeds max_length; the claimed bound fails. -/
theorem spec_c2_counterexample :
    encode_sequence cls_sep_state [] 0 true = Except.ok [0, 1] ∧
    ¬ (([(0 : Int), 1].length : Int) ≤ 0) :=
  ⟨rfl, by decide⟩

/-- C5 counterexample: loading the duplicate lines a, a leaves
vocab_to_id with one entry but id_to_vocab with two, so the claimed
size consistency fails for this installation. -/
theorem spec_c5_counterexample :
    (load_vocab TextTokenizer.init [[97], [97]]).vocab_to_id.length = 1 ∧
    (load_vocab TextTokenizer.init [[97], [97]]).id_to_vocab.length = 2 := by
  decide

/-- C6 counterexample: on the truncation-only path (no vocabulary), a
negative max_length makes the source call resize with a negative int
that converts to an enormous unsigned size and raises length_error,
so the claim that no max_length below or equal to zero ever raises an
error fails at max_length = -1. -/
theorem spec_c6_counterexample :
    encode_sequence TextTokenizer.init [97] (-1) true =
      Except.error "length_error" := rfl

/-! Equivalence of count_tokens and tokenize. -/

theorem count_run_eq (st : TextTokenizer) (text : List Nat) :
    ∀ fuel start i, count_run st text fuel start i =
      ((punct_run st text fuel start i).1,
        (punct_run st text fuel start i).2.length) := by
  intro fuel
  induction fuel with
  | zero => intro start i; rfl
  | succ fuel ih =>
    intro start i
    simp only [count_run, punct_run]
    split
    · simp only [ih]
      split <;> split <;> simp <;> omega
    · rfl

theorem count_go_eq (st : TextTokenizer) (text : List Nat) :
    ∀ fuel start i,
      count_go st text fuel start i = (tokenize_go st text fuel start i).length := by
  intro fuel
  induction fuel with
  | zero =>
    intro start i
    simp only [count_go, tokenize_go]
    split
    · rfl
    · split <;> rfl
  | succ fuel ih =>
    intro start i
    simp only [count_go, tokenize_go]
    split
    · split
      · exact ih start _
      · split
        · simp only [count_run_eq, ih]
          split <;> split <;> simp <;> omega
        · exact ih start _
    · split <;> rfl

/-- C3: for every input byte sequence and every configuration,
count_tokens returns exactly the number of tokens tokenize produces:
the two scanning loops mirror each other branch for branch, so the
counter agrees with the token list's length on every input, including
empty, whitespace-only, punctuation-heavy and invalid-UTF-8 ones. -/
theorem spec_c3_count_matches (st : TextTokenizer) (text : List Nat) :
    count_tokens st text = (tokenize st text).length :=
  count_go_eq st text text.length 0 0

/-! Characterization of decode and encode. -/

/-- Space-prefixed concatenation: the shape decode_loop produces once
a first token has already been emitted. -/
def sepcat (ts : List (List Nat)) : List Nat :=
  ts.foldr (fun u r => 32 :: (u ++ r)) []

theorem space_join_cons (ts : List (List Nat)) (t : List Nat) :
    space_join (t :: ts) = t ++ sepcat ts := by
  induction ts generalizing t with
  | nil => simp [space_join, sepcat]
  | cons u us ih =>
    simp only [space_join, sepcat, List.foldr_cons, ih u]

theorem decode_loop_spec (st : TextTokenizer) :
    ∀ ids, decode_loop st ids false = sepcat (decode_tokens st ids) ∧
      decode_loop st ids true = space_join (decode_tokens st ids) := by
  intro ids
  induction ids with
  | nil => exact ⟨rfl, rfl⟩
  | cons id rest ih =>
    by_cases h1 : 0 ≤ id ∧ id < (st.id_to_vocab.length : Int)
    · by_cases h2 : vocab_at st id = st.pad_token
      · simpa [decode_loop, decode_tokens, h1, h2] using ih
      · simp only [decode_loop, decode_tokens, List.filterMap_cons, if_pos h1,
          if_neg h2, space_join_cons]
        simp [sepcat, ih.1, decode_tokens]
    · simpa [decode_loop, decode_tokens, h1] using ih

/-- C7: decode returns the empty string when no vocabulary is
installed, and otherwise keeps, in order, exactly the tokens of ids
that are in range and differ from the pad token (cls, sep and unk are
kept literally), joined with a single space and no leading or
trailing space. -/
theorem spec_c7_decode (st : TextTokenizer) (ids : List Int) :
    decode st ids =
      if st.use_vocab then space_join (decode_tokens st ids) else [] := by
  unfold decode
  cases st.use_vocab with
  | false => rfl
  | true => simpa using (decode_loop_spec st ids).2

/-- C8: the id encode produces at each position is the position itself
when no vocabulary is installed, and otherwise the vocabulary id of
the token at that position with the resolved unknown id (possibly -1)
as fallback; positions beyond the token count produce nothing. -/
theorem spec_c8_encode (st : TextTokenizer) (text : List Nat) (k : Nat) :
    (encode st text)[k]? = ((tokenize st text)[k]?).map (fun tok =>
      if st.use_vocab then (lookup_vocab st.vocab_to_id tok).getD st.unk_id
      else (k : Int)) := by
  unfold encode
  cases h : st.use_vocab with
  | false =>
    simp only [h, Bool.false_eq_true, if_false, List.getElem?_map]
    by_cases hk : k < (tokenize st text).length
    · rw [List.getElem?_range hk, List.getElem?_eq_getElem hk]
      rfl
    · rw [List.getElem?_eq_none (Nat.le_of_not_lt hk),
        List.getElem?_eq_none (by simpa using Nat.le_of_not_lt hk)]
      rfl
  | true =>
    simp only [h, eq_self_iff_true, if_true, List.getElem?_map]
    cases htk : (tokenize st text)[k]? with
    | none => rfl
    | some tok =>
      cases hlv : lookup_vocab st.vocab_to_id tok <;> simp [hlv]

/-! Behaviour of encode_sequence. -/

/-- Number of valid special-token slots encode_sequence reserves: one
for cls when its id is non-negative and one for sep likewise. -/
def specials_count (st : TextTokenizer) : Int :=
  (if 0 ≤ st.cls_id then 1 else 0) + (if 0 ≤ st.sep_id then 1 else 0)

/-- C2, amended: with a vocabulary installed and add_special_tokens
requested, the result is always [cls id if valid] ++ (the longest
prefix of the encoded ids fitting the budget max_length minus the
number of valid special ids) ++ [sep id if valid]; the total length
is at most max_length provided max_length is at least the number of
valid special ids (the original bound fails below that, where the
result still contains every valid special id). -/
theorem spec_c2_amended (st : TextTokenizer) (text : List Nat) (ml : Int)
    (h : st.use_vocab = true) :
    encode_sequence st text ml true = Except.ok (
      (if 0 ≤ st.cls_id then [st.cls_id] else []) ++
      (encode st text).take
        (min ((encode st text).length : Int) (ml - specials_count st)).toNat ++
      (if 0 ≤ st.sep_id then [st.sep_id] else [])) ∧
    (specials_count st ≤ ml →
      ((((if 0 ≤ st.cls_id then [st.cls_id] else []) ++
        (encode st text).take
          (min ((encode st text).length : Int) (ml - specials_count st)).toNat ++
        (if 0 ≤ st.sep_id then [st.sep_id] else [])).length : Int) ≤ ml)) := by
  constructor
  · by_cases hc : 0 ≤ st.cls_id <;> by_cases hs : 0 ≤ st.sep_id <;>
      simp only [encode_sequence, h, specials_count, if_pos, if_neg, hc, hs,
        if_true, if_false, Bool.not_true, Bool.or_self, Bool.false_or,
        Bool.false_eq_true] <;>
      norm_num [specials_count, hc, hs]
    all_goals omega
  · intro hml
    by_cases hc : 0 ≤ st.cls_id <;> by_cases hs : 0 ≤ st.sep_id <;>
      simp only [specials_count, hc, hs, if_true, if_false,
        List.length_append, List.length_take, List.length_cons,
        List.length_nil] at hml ⊢ <;>
      push_cast <;>
      omega

/-- C2 witness at a concrete vocabulary containing [CLS], [SEP] and
hi: encoding hi with max_length 5 yields cls, the token id, sep. -/
theorem spec_c2_amended_witness :
    encode_sequence vocab3_state [104, 105] 5 true = Except.ok [0, 2, 1] := by
  have h := (spec_c2_amended vocab3_state [104, 105] 5 rfl).1
  rw [h]
  rfl

/-- C6, amended: for max_length at most 0, the special-token path
(vocabulary installed, add_special_tokens true) copies zero content
token ids and returns just the valid special ids without error; on
the truncation-only path, max_length = 0 returns the empty sequence
without error, but a negative max_length makes the source request a
resize to a negative int converted to an enormous unsigned size,
which raises length_error instead of copying zero tokens. -/
theorem spec_c6_amended (st : TextTokenizer) (text : List Nat) (ml : Int)
    (h : ml ≤ 0) :
    (st.use_vocab = true →
      encode_sequence st text ml true =
        Except.ok ((if 0 ≤ st.cls_id then [st.cls_id] else []) ++
          (if 0 ≤ st.sep_id then [st.sep_id] else []))) ∧
    encode_sequence st text 0 false = Except.ok [] ∧
    (ml < 0 → encode_sequence st text ml false = Except.error "length_error") := by
  refine ⟨fun hv => ?_, ?_, fun hml => ?_⟩
  · have havail : (if 0 ≤ st.cls_id then ml - 1 else ml) -
        (if 0 ≤ st.sep_id then 1 else 0) ≤ 0 := by
      by_cases hc : 0 ≤ st.cls_id <;> by_cases hs : 0 ≤ st.sep_id <;>
        simp [hc, hs] <;> omega
    have hmin : (min ((encode st text).length : Int)
        ((if 0 ≤ st.cls_id then ml - 1 else ml) -
          (if 0 ≤ st.sep_id then 1 else 0))).toNat = 0 :=
      Int.toNat_of_nonpos (le_trans (min_le_right _ _) havail)
    simp [encode_sequence, hv, hmin]
  · by_cases hn : ((encode st text).length : Int) > 0
    · simp [encode_sequence, hn]
    · have : (encode st text).length = 0 := by omega
      have he : encode st text = [] := List.length_eq_zero.mp this
      simp [encode_sequence, he]
  · have hn : ((encode st text).length : Int) > ml := by omega
    simp [encode_sequence, hn, hml]

/-- C6 witness: at max_length 0 with [CLS] and [SEP] loaded, the
special-token path returns exactly the two marker ids and the
truncation path returns the empty sequence; at max_length -1 without
a vocabulary the truncation path raises. -/
theorem spec_c6_amended_witness :
    encode_sequence cls_sep_state [104] 0 true = Except.ok [0, 1] ∧
    encode_sequence cls_sep_state [104] 0 false = Except.ok [] ∧
    encode_sequence TextTokenizer.init [] (-1) false =
      Except.error "length_error" := by
  have h0 := spec_c6_amended cls_sep_state [104] 0 (by decide)
  have h1 := spec_c6_amended TextTokenizer.init [] (-1) (by decide)
  refine ⟨?_, h0.2.1, h1.2.2 (by decide)⟩
  rw [h0.1 rfl]
  rfl

/-! Vocabulary consistency after installation. -/

theorem enum_assoc_from_length (k : Nat) (l : List (List Nat)) :
    (enum_assoc_from k l).length = l.length := by
  induction l generalizing k with
  | nil => rfl
  | cons t ts ih => simp [enum_assoc_from, ih]

theorem enum_assoc_from_map_fst (k : Nat) (l : List (List Nat)) :
    (enum_assoc_from k l).map Prod.fst = l := by
  induction l generalizing k with
  | nil => rfl
  | cons t ts ih => simp [enum_assoc_from, ih]

theorem enum_assoc_from_map_snd (k : Nat) (l : List (List Nat)) :
    (enum_assoc_from k l).map Prod.snd = (List.range' k l.length).map Int.ofNat := by
  induction l generalizing k with
  | nil => rfl
  | cons t ts ih => simp [enum_assoc_from, List.range'_succ, ih]

theorem enum_assoc_from_append_single (k : Nat) (l : List (List Nat))
    (t : List Nat) :
    enum_assoc_from k (l ++ [t]) =
      enum_assoc_from k l ++ [(t, ((k + l.length : Nat) : Int))] := by
  induction l generalizing k with
  | nil => simp [enum_assoc_from]
  | cons u us ih =>
    have harith : k + 1 + us.length = k + (us.length + 1) := by omega
    calc enum_assoc_from k (u :: us ++ [t])
        = (u, (k : Int)) :: enum_assoc_from (k + 1) (us ++ [t]) := rfl
      _ = (u, (k : Int)) ::
            (enum_assoc_from (k + 1) us ++
              [(t, ((k + 1 + us.length : Nat) : Int))]) := by
          rw [ih (k + 1)]
      _ = (u, (k : Int)) ::
            (enum_assoc_from (k + 1) us ++
              [(t, ((k + (us.length + 1) : Nat) : Int))]) := by
          rw [harith]
      _ = enum_assoc_from k (u :: us) ++
            [(t, ((k + (u :: us).length : Nat) : Int))] := by
          simp [enum_assoc_from]

theorem enum_assoc_from_mem (l : List (List Nat)) (k : Nat)
    (p : List Nat × Int) (hp : p ∈ enum_assoc_from k l) :
    ∃ j, p.2 = ((k + j : Nat) : Int) ∧ l[j]? = some p.1 := by
  induction l generalizing k with
  | nil => simp [enum_assoc_from] at hp
  | cons t ts ih =>
    simp only [enum_assoc_from, List.mem_cons] at hp
    rcases hp with hp | hp
    · exact ⟨0, by simp [hp]⟩
    · obtain ⟨j, hj1, hj2⟩ := ih (k + 1) hp
      exact ⟨j + 1, by omega, by simpa using hj2⟩

theorem lookup_enum_assoc_none (l : List (List Nat)) (k : Nat) (t : List Nat) :
    lookup_vocab (enum_assoc_from k l) t = none ↔ ¬ t ∈ l := by
  induction l generalizing k with
  | nil => simp [enum_assoc_from, lookup_vocab]
  | cons u us ih =>
    simp only [enum_assoc_from, lookup_vocab, List.find?_cons, List.mem_cons]
    by_cases hu : u = t
    · simp [hu]
    · simpa [hu, lookup_vocab, Ne.symm hu] using ih (k + 1)

theorem consistent_of_enum (st : TextTokenizer)
    (h : st.vocab_to_id = enum_assoc st.id_to_vocab) : VocabConsistent st := by
  refine ⟨?_, ?_, ?_⟩
  · rw [h, enum_assoc, enum_assoc_from_length]
  · rw [h, enum_assoc, enum_assoc_from_map_snd, List.range_eq_range']
  · intro p hp
    rw [h] at hp
    obtain ⟨j, hj1, hj2⟩ := enum_assoc_from_mem st.id_to_vocab 0 p hp
    have : p.2.toNat = j := by omega
    rw [this]
    exact hj2

theorem set_special_ids_vocab_to_id (st : TextTokenizer) (t : List Nat)
    (id : Int) : (set_special_ids st t id).vocab_to_id = st.vocab_to_id := by
  unfold set_special_ids
  split_ifs <;> rfl

theorem set_special_ids_id_to_vocab (st : TextTokenizer) (t : List Nat)
    (id : Int) : (set_special_ids st t id).id_to_vocab = st.id_to_vocab := by
  unfold set_special_ids
  split_ifs <;> rfl

theorem assoc_insert_fresh (l : List (List Nat)) (t : List Nat) (v : Int)
    (h : ¬ t ∈ l) :
    assoc_insert (enum_assoc l) t v = enum_assoc l ++ [(t, v)] := by
  unfold assoc_insert enum_assoc
  rw [(lookup_enum_assoc_none l 0 t).mpr h]
  rfl

theorem load_fold_enum (lines : List (List Nat)) :
    ∀ st : TextTokenizer,
      st.vocab_to_id = enum_assoc st.id_to_vocab →
      (st.id_to_vocab ++
        (lines.map rtrim).filter (fun t => decide (t ≠ []))).Nodup →
      (lines.foldl load_vocab_step st).vocab_to_id =
        enum_assoc (lines.foldl load_vocab_step st).id_to_vocab := by
  induction lines with
  | nil => intro st h _; simpa using h
  | cons line rest ih =>
    intro st h hnd
    simp only [List.foldl_cons]
    by_cases ht : rtrim line = []
    · have hstep : load_vocab_step st line = st := by
        simp [load_vocab_step, ht]
      rw [hstep]
      apply ih st h
      simpa [List.filter_cons, ht] using hnd
    · have hfilter : (((line :: rest).map rtrim).filter
          (fun t => decide (t ≠ []))) =
          rtrim line :: ((rest.map rtrim).filter (fun t => decide (t ≠ []))) := by
        simp [List.filter_cons, ht]
      rw [hfilter] at hnd
      have hmem : ¬ rtrim line ∈ st.id_to_vocab := by
        intro hin
        have hd := (List.nodup_append.mp hnd).2.2
        exact hd hin (List.mem_cons_self _ _)
      have hstep1 : (load_vocab_step st line).vocab_to_id =
          assoc_insert st.vocab_to_id (rtrim line)
            (st.id_to_vocab.length : Int) := by
        simp [load_vocab_step, ht, set_special_ids_vocab_to_id]
      have hstep2 : (load_vocab_step st line).id_to_vocab =
          st.id_to_vocab ++ [rtrim line] := by
        simp [load_vocab_step, ht, set_special_ids_id_to_vocab]
      apply ih
      · rw [hstep1, hstep2, h, assoc_insert_fresh _ _ _ hmem]
        simp only [enum_assoc]
        rw [enum_assoc_from_append_single]
        simp
      · rw [hstep2]
        rw [List.append_cons] at hnd
        simpa using hnd

theorem nodup_append_singleton {l : List (List Nat)} {t : List Nat}
    (hnd : l.Nodup) (hmem : ¬ t ∈ l) : (l ++ [t]).Nodup := by
  rw [List.nodup_append]
  refine ⟨hnd, List.nodup_singleton t, ?_⟩
  intro a ha hb
  rw [List.mem_singleton] at hb
  subst hb
  exact hmem ha

theorem not_mem_of_lookup_not_some {l : List (List Nat)} {t : List Nat}
    (h : ¬ (lookup_vocab (enum_assoc l) t).isSome = true) : ¬ t ∈ l := by
  apply (lookup_enum_assoc_none l 0 t).mp
  exact Option.not_isSome_iff_eq_none.mp h

theorem build_special_step_enum (st : TextTokenizer) (token : List Nat)
    (h : st.vocab_to_id = enum_assoc st.id_to_vocab)
    (hnd : st.id_to_vocab.Nodup) :
    (build_special_step st token).vocab_to_id =
      enum_assoc (build_special_step st token).id_to_vocab ∧
    (build_special_step st token).id_to_vocab.Nodup := by
  unfold build_special_step
  by_cases hl : (lookup_vocab st.vocab_to_id token).isSome = true
  · simp only [hl, if_true]
    exact ⟨h, hnd⟩
  · have hmem : ¬ token ∈ st.id_to_vocab :=
      not_mem_of_lookup_not_some (by rw [h] at hl; exact hl)
    simp only [hl, Bool.false_eq_true, if_false, set_special_ids_vocab_to_id,
      set_special_ids_id_to_vocab]
    refine ⟨?_, nodup_append_singleton hnd hmem⟩
    rw [h, assoc_insert_fresh _ _ _ hmem]
    simp only [enum_assoc]
    rw [enum_assoc_from_append_single]
    simp

theorem build_special_fold_enum (toks : List (List Nat)) :
    ∀ st : TextTokenizer,
      st.vocab_to_id = enum_assoc st.id_to_vocab → st.id_to_vocab.Nodup →
      (toks.foldl build_special_step st).vocab_to_id =
        enum_assoc (toks.foldl build_special_step st).id_to_vocab ∧
      (toks.foldl build_special_step st).id_to_vocab.Nodup := by
  induction toks with
  | nil => intro st h hnd; exact ⟨h, hnd⟩
  | cons t ts ih =>
    intro st h hnd
    have hstep := build_special_step_enum st t h hnd
    exact ih _ hstep.1 hstep.2

theorem build_regular_fold_enum (maxv : Int) (cands : List (List Nat)) :
    ∀ p : TextTokenizer × Int,
      p.1.vocab_to_id = enum_assoc p.1.id_to_vocab → p.1.id_to_vocab.Nodup →
      (cands.foldl (build_regular_step maxv) p).1.vocab_to_id =
        enum_assoc (cands.foldl (build_regular_step maxv) p).1.id_to_vocab ∧
      (cands.foldl (build_regular_step maxv) p).1.id_to_vocab.Nodup := by
  induction cands with
  | nil => intro p h hnd; exact ⟨h, hnd⟩
  | cons t ts ih =>
    intro p h hnd
    apply ih
    all_goals
      unfold build_regular_step
      split
      case isTrue hcond =>
        have hmem : ¬ t ∈ p.1.id_to_vocab :=
          not_mem_of_lookup_not_some
            (by rw [h] at hcond; simp [hcond.1])
        first
        | (show assoc_insert p.1.vocab_to_id t _ = _
           rw [h, assoc_insert_fresh _ _ _ hmem]
           simp only [enum_assoc]
           rw [enum_assoc_from_append_single]
           simp)
        | exact nodup_append_singleton hnd hmem
      case isFalse => first | exact h | exact hnd

/-- C5, amended: after a load of pairwise-distinct trimmed non-empty
lines (distinct as any file written by save_vocab is), and after
every build (for every candidate order and capacity), the two
vocabulary containers are consistent: equal sizes, ids contiguous
from 0 in insertion order, and id_to_vocab inverting vocab_to_id.  A
load of duplicate lines violates the sizes (the map entry is
overwritten while the vector keeps both copies), which is the only
correction needed. -/
theorem spec_c5_amended :
    (∀ (st : TextTokenizer) (lines : List (List Nat)),
      ((lines.map rtrim).filter (fun t => decide (t ≠ []))).Nodup →
      VocabConsistent (load_vocab st lines)) ∧
    (∀ (st : TextTokenizer) (cands : List (List Nat)) (maxv : Int),
      VocabConsistent (build_vocab_core st cands maxv)) := by
  constructor
  · intro st lines hnd
    apply consistent_of_enum
    exact load_fold_enum lines { st with vocab_to_id := [], id_to_vocab := [] }
      rfl (by simpa using hnd)
  · intro st cands maxv
    apply consistent_of_enum
    have h1 := build_special_fold_enum
      [st.pad_token, st.unk_token, st.cls_token, st.sep_token]
      { st with vocab_to_id := [], id_to_vocab := [] } rfl (List.nodup_nil)
    have h2 := build_regular_fold_enum maxv cands (_, 0) h1.1 h1.2
    exact h2.1

/-- C5 witness: consistency after loading the distinct two-line
vocabulary a, b and after building from the single candidate a. -/
theorem spec_c5_amended_witness :
    VocabConsistent (load_vocab TextTokenizer.init [[97], [98]]) ∧
    VocabConsistent (build_vocab_core TextTokenizer.init [[97]] 50000) :=
  ⟨spec_c5_amended.1 TextTokenizer.init [[97], [98]] (by decide),
    spec_c5_amended.2 TextTokenizer.init [[97]] 50000⟩

/-! Non-emptiness of every produced token. -/

theorem utf8_char_length_pos (c : Nat) : 1 ≤ utf8_char_length c := by
  unfold utf8_char_length
  split_ifs <;> omega

theorem normalize_loop_ne_nil :
    ∀ (fuel : Nat) (token : List Nat), token ≠ [] →
      normalize_loop fuel token ≠ [] := by
  intro fuel token h
  match fuel, token with
  | _, [] => exact absurd rfl h
  | 0, c :: rest => simp [normalize_loop]
  | fuel + 1, c :: rest =>
    unfold normalize_loop
    split
    · simp
    · intro hcontra
      rw [List.append_eq_nil, List.take_eq_nil_iff] at hcontra
      rcases hcontra.1 with h0 | h0
      · have := utf8_char_length_pos c
        omega
      · exact absurd h0 (by simp)

theorem normalize_token_ne_nil (lower : Bool) (token : List Nat)
    (h : token ≠ []) : normalize_token lower token ≠ [] := by
  unfold normalize_token
  split
  · exact normalize_loop_ne_nil _ _ h
  · exact h

theorem mem_ite_singleton {c : Prop} [Decidable c] {a x : List Nat}
    (h : a ∈ (if c then [x] else ([] : List (List Nat)))) : a = x := by
  by_cases hc : c
  · rw [if_pos hc, List.mem_singleton] at h
    exact h
  · rw [if_neg hc] at h
    simp at h

theorem punct_run_tokens_ne_nil (st : TextTokenizer) (text : List Nat) :
    ∀ fuel start i tok, tok ∈ (punct_run st text fuel start i).2 → tok ≠ [] := by
  intro fuel start i
  induction fuel, start, i using punct_run.induct st text with
  | case1 start i =>
    intro tok htok
    simp [punct_run] at htok
  | case2 start i fuel hcond ih =>
    intro tok htok
    rw [punct_run, if_pos hcond] at htok
    simp only [List.mem_append] at htok
    rcases htok with htok | htok
    · have he := mem_ite_singleton htok
      subst he
      exact normalize_token_ne_nil _ _ (by simp)
    · exact ih tok htok
  | case3 start i fuel hcond =>
    intro tok htok
    rw [punct_run, if_neg hcond] at htok
    simp at htok

theorem tokenize_go_tokens_ne_nil (st : TextTokenizer) (text : List Nat) :
    ∀ fuel start i tok, tok ∈ tokenize_go st text fuel start i → tok ≠ [] := by
  intro fuel start i
  induction fuel, start, i using tokenize_go.induct st text with
  | case1 start i hi =>
    intro tok htok
    rw [tokenize_go] at htok
    simp only [hi, if_true] at htok
    simp at htok
  | case2 start i hi fuel hc ih =>
    intro tok htok
    rw [tokenize_go] at htok
    simp only [hi, if_true] at htok
    rw [if_pos hc] at htok
    exact ih tok htok
  | case3 start i hi fuel hc hsp ih =>
    intro tok htok
    rw [tokenize_go] at htok
    simp only [hi, if_true] at htok
    rw [if_neg hc, if_pos hsp] at htok
    simp only [List.mem_append] at htok
    rcases htok with ((htok | htok) | htok) | htok
    · by_cases hpend : start < i
      · rw [if_pos hpend, List.mem_singleton] at htok
        subst htok
        apply normalize_token_ne_nil
        simp only [ne_eq, List.take_eq_nil_iff, List.drop_eq_nil_iff]
        push_neg
        omega
      · rw [if_neg hpend] at htok
        simp at htok
    · have he := mem_ite_singleton htok
      subst he
      exact normalize_token_ne_nil _ _ (by simp)
    · exact punct_run_tokens_ne_nil st text _ _ _ tok htok
    · exact ih tok htok
  | case4 start i hi fuel hc hsp ih =>
    intro tok htok
    rw [tokenize_go] at htok
    simp only [hi, if_true] at htok
    rw [if_neg hc, if_neg hsp] at htok
    exact ih tok htok
  | case5 t start i hi hs =>
    intro tok htok
    rw [tokenize_go.eq_def] at htok
    rw [if_neg hi, if_pos hs, List.mem_singleton] at htok
    subst htok
    apply normalize_token_ne_nil
    simp only [ne_eq, List.drop_eq_nil_iff]
    omega
  | case6 t start i hi hs =>
    intro tok htok
    rw [tokenize_go.eq_def] at htok
    rw [if_neg hi, if_neg hs] at htok
    simp at htok

/-- C10: every token string tokenize returns is non-empty, for every
input byte sequence and configuration: every emitted slice is
non-empty by construction (including the trailing one), and
normalization keeps a non-empty token non-empty even when a declared
multi-byte length overruns the end of the token. -/
theorem spec_c10_tokens_nonempty (st : TextTokenizer) (text : List Nat)
    (tok : List Nat) (h : tok ∈ tokenize st text) : tok ≠ [] :=
  tokenize_go_tokens_ne_nil st text text.length 0 0 tok h

/-- C10 witness: the token produced for the two-byte text hi is
non-empty. -/
theorem spec_c10_tokens_nonempty_witness : ([104, 105] : List Nat) ≠ [] :=
  spec_c10_tokens_nonempty TextTokenizer.init [104, 105] [104, 105] (by decide)

/-! UTF-8 safety: normalization never changes length or high bytes,
and tokenize only cuts the text at UTF-8 character boundaries. -/

theorem getD_eq_getElem {l : List Nat} {i : Nat} (h : i < l.length) :
    l.getD i 0 = l[i] := by
  simp [List.getD_eq_getElem?_getD, List.getElem?_eq_getElem h]

theorem drop_cons_getD {text : List Nat} {i : Nat} (h : i < text.length) :
    text.drop i = text.getD i 0 :: text.drop (i + 1) := by
  rw [List.drop_eq_getElem_cons h, getD_eq_getElem h]

theorem normalize_loop_length :
    ∀ fuel (token : List Nat), token.length ≤ fuel →
      (normalize_loop fuel token).length = token.length := by
  intro fuel
  induction fuel with
  | zero =>
    intro token h
    have : token = [] := List.length_eq_zero.mp (by omega)
    subst this
    rfl
  | succ fuel ih =>
    intro token h
    match token with
    | [] => rfl
    | c :: rest =>
      rw [normalize_loop]
      split
      · simpa using ih rest (by simpa using h)
      · have hpos := utf8_char_length_pos c
        rw [List.length_append, List.length_take,
          ih _ (by simp only [List.length_drop]; simp at h ⊢; omega)]
        simp only [List.length_drop]
        simp at h ⊢
        omega

theorem normalize_loop_getElem :
    ∀ (fuel : Nat) (token : List Nat), token.length ≤ fuel → ∀ (k : Nat),
      (normalize_loop fuel token)[k]? = token[k]? ∨
      (normalize_loop fuel token)[k]? = (token[k]?).map to_ascii_lower := by
  intro fuel
  induction fuel with
  | zero =>
    intro token h k
    have : token = [] := List.length_eq_zero.mp (by omega)
    subst this
    exact Or.inl rfl
  | succ fuel ih =>
    intro token h k
    match token with
    | [] => exact Or.inl rfl
    | c :: rest =>
      rw [normalize_loop]
      split
      · match k with
        | 0 => exact Or.inr (by simp [to_ascii_lower])
        | k + 1 =>
          simpa using ih rest (by simpa using h) k
      · by_cases hL : utf8_char_length c ≤ (c :: rest).length
        · have hlentake : ((c :: rest).take (utf8_char_length c)).length =
              utf8_char_length c := by
            rw [List.length_take]
            omega
          by_cases hk : k < utf8_char_length c
          · left
            rw [List.getElem?_append_left (by rw [hlentake]; exact hk),
              List.getElem?_take]
            rw [if_pos hk]
          · have hk2 : ((c :: rest).take (utf8_char_length c)).length ≤ k := by
              rw [hlentake]
              exact Nat.le_of_not_lt hk
            rw [List.getElem?_append_right hk2, hlentake]
            have hdroplen : ((c :: rest).drop (utf8_char_length c)).length ≤
                fuel := by
              simp only [List.length_drop, List.length_cons]
              have hpos := utf8_char_length_pos c
              have h2 : rest.length + 1 ≤ fuel + 1 := by simpa using h
              omega
            rcases ih _ hdroplen (k - utf8_char_length c) with hcase | hcase
            · left
              rw [hcase, List.getElem?_drop]
              congr 1
              omega
            · right
              rw [hcase, List.getElem?_drop]
              congr 2
              omega
        · have hdrop : (c :: rest).drop (utf8_char_length c) = [] :=
            List.drop_eq_nil_iff.mpr (by omega)
          have htake : (c :: rest).take (utf8_char_length c) = c :: rest :=
            List.take_of_length_le (by omega)
          have hnil : normalize_loop fuel ([] : List Nat) = [] := by
            cases fuel <;> rfl
          rw [hdrop, hnil, htake]
          left
          simp

theorem to_ascii_lower_high {c : Nat} (h : 128 ≤ c) : to_ascii_lower c = c := by
  unfold to_ascii_lower
  rw [if_neg (by omega)]

theorem normalize_token_highbit_preserved (token : List Nat) :
    (normalize_token true token).length = token.length ∧
    ∀ k, 128 ≤ token.getD k 0 →
      (normalize_token true token).getD k 0 = token.getD k 0 := by
  constructor
  · exact normalize_loop_length token.length token le_rfl
  · intro k hk
    have hklt : k < token.length := by
      by_contra hcon
      have h0 : token.getD k 0 = 0 := by
        rw [List.getD_eq_getElem?_getD, List.getElem?_eq_none (by omega)]
        rfl
      omega
    have hnt : normalize_token true token = normalize_loop token.length token :=
      rfl
    rcases normalize_loop_getElem token.length token le_rfl k with hc | hc
    · rw [hnt, List.getD_eq_getElem?_getD, hc, ← List.getD_eq_getElem?_getD]
    · rw [hnt, List.getD_eq_getElem?_getD, hc, List.getElem?_eq_getElem hklt]
      rw [List.getD_eq_getElem?_getD, List.getElem?_eq_getElem hklt] at hk
      rw [List.getD_eq_getElem?_getD, List.getElem?_eq_getElem hklt]
      simp only [Option.map_some, Option.getD_some] at hk ⊢
      exact to_ascii_lower_high hk

set_option maxRecDepth 40000 in
theorem land128_lt : ∀ c : Nat, c < 248 → ((c &&& 128 = 0) ↔ c < 128) := by
  decide

set_option maxRecDepth 40000 in
theorem charlen_two : ∀ c : Nat, c < 224 → 192 ≤ c → utf8_char_length c = 2 := by
  decide

set_option maxRecDepth 40000 in
theorem charlen_three : ∀ c : Nat, c < 240 → 224 ≤ c → utf8_char_length c = 3 := by
  decide

set_option maxRecDepth 40000 in
theorem charlen_four : ∀ c : Nat, c < 248 → 240 ≤ c → utf8_char_length c = 4 := by
  decide

theorem utf8_valid_go_nil (f : Nat) : utf8_valid_go f [] = true := by
  cases f <;> rfl

theorem utf8_valid_go_succ_cons (f : Nat) (c : Nat) (rest : List Nat) :
    utf8_valid_go (f + 1) (c :: rest) =
      (if c < 128 then utf8_valid_go f rest
      else if 192 ≤ c ∧ c < 248 then
        decide (utf8_char_length c - 1 ≤ rest.length) &&
          (List.range (utf8_char_length c - 1)).all
            (fun j => decide (128 ≤ rest.getD j 0 ∧ rest.getD j 0 < 192)) &&
          utf8_valid_go f (rest.drop (utf8_char_length c - 1))
      else false) := rfl

theorem utf8_valid_go_congr :
    ∀ (f1 f2 : Nat) (l : List Nat), l.length ≤ f1 → l.length ≤ f2 →
      utf8_valid_go f1 l = utf8_valid_go f2 l := by
  intro f1
  induction f1 with
  | zero =>
    intro f2 l h1 h2
    have : l = [] := List.length_eq_zero.mp (by omega)
    subst this
    rw [utf8_valid_go_nil, utf8_valid_go_nil]
  | succ f1 ih =>
    intro f2 l h1 h2
    match l with
    | [] => rw [utf8_valid_go_nil, utf8_valid_go_nil]
    | c :: rest =>
      match f2 with
      | 0 => simp at h2
      | f2 + 1 =>
        rw [utf8_valid_go_succ_cons, utf8_valid_go_succ_cons]
        simp only [List.length_cons] at h1 h2
        split_ifs with hc hr
        · exact ih f2 rest (by omega) (by omega)
        · rw [ih f2 (rest.drop (utf8_char_length c - 1))
            (by rw [List.length_drop]; omega)
            (by rw [List.length_drop]; omega)]
        · rfl

theorem utf8_valid_cons_eq {c : Nat} {rest : List Nat} :
    utf8_valid (c :: rest) =
      (if c < 128 then utf8_valid rest
      else if 192 ≤ c ∧ c < 248 then
        decide (utf8_char_length c - 1 ≤ rest.length) &&
          (List.range (utf8_char_length c - 1)).all
            (fun j => decide (128 ≤ rest.getD j 0 ∧ rest.getD j 0 < 192)) &&
          utf8_valid (rest.drop (utf8_char_length c - 1))
      else false) := by
  show utf8_valid_go (c :: rest).length (c :: rest) = _
  rw [List.length_cons, utf8_valid_go_succ_cons]
  split_ifs with hc hr
  · exact utf8_valid_go_congr rest.length rest.length rest le_rfl le_rfl
  · rw [utf8_valid_go_congr rest.length (rest.drop (utf8_char_length c - 1)).length
      (rest.drop (utf8_char_length c - 1)) (by rw [List.length_drop]; omega)
      le_rfl]
    rfl
  · rfl

theorem utf8_valid_head_bound {c : Nat} {rest : List Nat}
    (h : utf8_valid (c :: rest) = true) :
    c < 248 ∧ ¬ (128 ≤ c ∧ c < 192) := by
  rw [utf8_valid_cons_eq] at h
  split_ifs at h with h1 h2
  · omega
  · omega

theorem utf8_valid_tail_ascii {c : Nat} {rest : List Nat}
    (h : utf8_valid (c :: rest) = true) (hc : c < 128) :
    utf8_valid rest = true := by
  rw [utf8_valid_cons_eq, if_pos hc] at h
  exact h

theorem utf8_valid_drop_charlen {c : Nat} {rest : List Nat}
    (h : utf8_valid (c :: rest) = true) (hc : 128 ≤ c) :
    utf8_valid ((c :: rest).drop (utf8_char_length c)) = true := by
  rw [utf8_valid_cons_eq, if_neg (by omega)] at h
  by_cases hr : 192 ≤ c ∧ c < 248
  · rw [if_pos hr] at h
    simp only [Bool.and_eq_true] at h
    have hsucc : utf8_char_length c = (utf8_char_length c - 1) + 1 := by
      have := utf8_char_length_pos c
      omega
    rw [hsucc, List.drop_succ_cons]
    exact h.2
  · rw [if_neg hr] at h
    exact absurd h (by simp)

theorem is_ascii_punct_lt {c : Nat} (h : is_ascii_punct c = true) : c < 128 := by
  unfold is_ascii_punct at h
  rw [decide_eq_true_iff] at h
  omega

theorem should_split_ascii {st : TextTokenizer} {c : Nat}
    (hd : ∀ d ∈ st.delimiters, d < 128)
    (h : should_split_at st c = true) : c < 128 := by
  unfold should_split_at at h
  rw [Bool.or_eq_true] at h
  rcases h with h | h
  · exact hd c (List.mem_of_elem_eq_true h)
  · rw [Bool.and_eq_true] at h
    exact is_ascii_punct_lt h.2

theorem should_split_high_false {st : TextTokenizer} {c : Nat}
    (hd : ∀ d ∈ st.delimiters, d < 128) (hc : 128 ≤ c) :
    should_split_at st c = false := by
  cases hsp : should_split_at st c
  · rfl
  · have := should_split_ascii hd hsp
    omega

/-- A token that is the normalization of a slice of the text whose
two endpoints both lie on UTF-8 character boundaries (positions whose
suffix is itself valid UTF-8). -/
def BoundaryToken (st : TextTokenizer) (text tok : List Nat) : Prop :=
  ∃ s e, tok = normalize_token st.lowercase ((text.drop s).take (e - s)) ∧
    utf8_valid (text.drop s) = true ∧ utf8_valid (text.drop e) = true

theorem punct_run_boundary (st : TextTokenizer) (text : List Nat)
    (hd : ∀ d ∈ st.delimiters, d < 128) :
    ∀ fuel start i, utf8_valid (text.drop i) = true →
      utf8_valid (text.drop (punct_run st text fuel start i).1) = true ∧
      ∀ tok ∈ (punct_run st text fuel start i).2, BoundaryToken st text tok := by
  intro fuel start i
  induction fuel, start, i using punct_run.induct st text with
  | case1 start i =>
    intro hv
    refine ⟨hv, ?_⟩
    intro tok htok
    simp [punct_run] at htok
  | case2 start i fuel hcond ih =>
    intro hv
    have hc : text.getD i 0 < 128 := should_split_ascii hd hcond.2
    have hdropi : text.drop i = text.getD i 0 :: text.drop (i + 1) :=
      drop_cons_getD hcond.1
    have hv1 : utf8_valid (text.drop (i + 1)) = true :=
      utf8_valid_tail_ascii (hdropi ▸ hv) hc
    obtain ⟨hvf, htoks⟩ := ih hv1
    rw [punct_run, if_pos hcond]
    refine ⟨hvf, ?_⟩
    intro tok htok
    simp only [List.mem_append] at htok
    rcases htok with htok | htok
    · have he := mem_ite_singleton htok
      subst he
      have htake : (text.drop i).take (i + 1 - i) = [text.getD i 0] := by
        rw [hdropi]
        simp
      exact ⟨i, i + 1, by rw [htake], hv, hv1⟩
    · exact htoks tok htok
  | case3 start i fuel hcond =>
    intro hv
    rw [punct_run, if_neg hcond]
    refine ⟨hv, ?_⟩
    intro tok htok
    simp at htok

theorem tokenize_go_boundary (st : TextTokenizer) (text : List Nat)
    (hd : ∀ d ∈ st.delimiters, d < 128) :
    ∀ fuel start i, utf8_valid (text.drop start) = true →
      utf8_valid (text.drop i) = true →
      ∀ tok ∈ tokenize_go st text fuel start i, BoundaryToken st text tok := by
  intro fuel start i
  induction fuel, start, i using tokenize_go.induct st text with
  | case1 start i hi =>
    intro hvs hvi tok htok
    rw [tokenize_go] at htok
    simp only [hi, if_true] at htok
    simp at htok
  | case2 start i hi fuel hc ih =>
    intro hvs hvi tok htok
    rw [tokenize_go] at htok
    simp only [hi, if_true] at htok
    rw [if_pos hc] at htok
    have hdropi : text.drop i = text.getD i 0 :: text.drop (i + 1) :=
      drop_cons_getD hi
    have hb := utf8_valid_head_bound (hdropi ▸ hvi)
    have h128 : 128 ≤ text.getD i 0 := by
      rcases Nat.lt_or_ge (text.getD i 0) 128 with hlt | hge
      · exact absurd ((land128_lt _ (by omega)).mpr hlt) hc
      · exact hge
    have h1 : utf8_valid
        ((text.drop i).drop (utf8_char_length (text.getD i 0))) = true := by
      rw [hdropi]
      exact utf8_valid_drop_charlen (hdropi ▸ hvi) h128
    rw [List.drop_drop] at h1
    have hnext : utf8_valid
        (text.drop (i + utf8_char_length (text.getD i 0))) = true := by
      convert h1 using 3
    exact ih hvs hnext tok htok
  | case3 start i hi fuel hc hsp ih =>
    intro hvs hvi tok htok
    rw [tokenize_go] at htok
    simp only [hi, if_true] at htok
    rw [if_neg hc, if_pos hsp] at htok
    have hc128 : text.getD i 0 < 128 := should_split_ascii hd hsp
    have hdropi : text.drop i = text.getD i 0 :: text.drop (i + 1) :=
      drop_cons_getD hi
    have hvi1 : utf8_valid (text.drop (i + 1)) = true :=
      utf8_valid_tail_ascii (hdropi ▸ hvi) hc128
    obtain ⟨hvrun, hruntoks⟩ :=
      punct_run_boundary st text hd (fuel + 1) start i hvi
    simp only [List.mem_append] at htok
    rcases htok with ((htok | htok) | htok) | htok
    · by_cases hpend : start < i
      · rw [if_pos hpend, List.mem_singleton] at htok
        exact ⟨start, i, htok, hvs, hvi⟩
      · rw [if_neg hpend] at htok
        simp at htok
    · have he := mem_ite_singleton htok
      subst he
      have htake : (text.drop i).take (i + 1 - i) = [text.getD i 0] := by
        rw [hdropi]
        simp
      exact ⟨i, i + 1, by rw [htake], hvi, hvi1⟩
    · exact hruntoks tok htok
    · exact ih hvrun hvrun tok htok
  | case4 start i hi fuel hc hsp ih =>
    intro hvs hvi tok htok
    rw [tokenize_go] at htok
    simp only [hi, if_true] at htok
    rw [if_neg hc, if_neg hsp] at htok
    have hdropi : text.drop i = text.getD i 0 :: text.drop (i + 1) :=
      drop_cons_getD hi
    have hb := utf8_valid_head_bound (hdropi ▸ hvi)
    have hlt : text.getD i 0 < 128 :=
      (land128_lt _ hb.1).mp (not_ne_iff.mp hc)
    have hvi1 : utf8_valid (text.drop (i + 1)) = true :=
      utf8_valid_tail_ascii (hdropi ▸ hvi) hlt
    exact ih hvs hvi1 tok htok
  | case5 t start i hi hs =>
    intro hvs hvi tok htok
    rw [tokenize_go.eq_def] at htok
    rw [if_neg hi, if_pos hs, List.mem_singleton] at htok
    subst htok
    have htake : (text.drop start).take (text.length - start) =
        text.drop start := List.take_of_length_le (by rw [List.length_drop])
    refine ⟨start, text.length, by rw [htake], hvs, ?_⟩
    rw [List.drop_length]
    rfl
  | case6 t start i hi hs =>
    intro hvs hvi tok htok
    rw [tokenize_go.eq_def] at htok
    rw [if_neg hi, if_neg hs] at htok
    simp at htok

/-- C9: under any configuration whose explicit delimiters are ASCII
(as the default whitespace set is), a byte with the high bit set is
never a splitting byte; on valid UTF-8 input every token tokenize
produces is the normalization of a slice of the text whose endpoints
are UTF-8 character boundaries, so no multi-byte character is ever
split across two tokens; normalization with lowercase enabled keeps
the length and every high byte of the token unchanged; and tokenize
on the word café with lowercase enabled returns exactly that word,
its accented character's bytes untouched. -/
theorem spec_c9_utf8_safety :
    (∀ (st : TextTokenizer) (c : Nat), (∀ d ∈ st.delimiters, d < 128) →
      128 ≤ c → should_split_at st c = false) ∧
    (∀ (st : TextTokenizer) (text : List Nat),
      (∀ d ∈ st.delimiters, d < 128) → utf8_valid text = true →
      ∀ tok ∈ tokenize st text, BoundaryToken st text tok) ∧
    (∀ token : List Nat,
      (normalize_token true token).length = token.length ∧
      ∀ k, 128 ≤ token.getD k 0 →
        (normalize_token true token).getD k 0 = token.getD k 0) ∧
    tokenize lower_state cafe_bytes = [cafe_bytes] := by
  refine ⟨?_, ?_, ?_, ?_⟩
  · intro st c hd hc
    exact should_split_high_false hd hc
  · intro st text hd hv tok htok
    exact tokenize_go_boundary st text hd text.length 0 0
      (by simpa using hv) (by simpa using hv) tok htok
  · exact normalize_token_highbit_preserved
  · decide

/-- C9 witness: the continuation byte 195 is not a delimiter for the
default configuration; the single token produced for café is a
boundary-aligned slice; normalizing the one-byte token 195 keeps its
length and byte; and café tokenizes to itself. -/
theorem spec_c9_utf8_safety_witness :
    should_split_at TextTokenizer.init 195 = false ∧
    BoundaryToken lower_state cafe_bytes cafe_bytes ∧
    ((normalize_token true [195]).length = [195].length ∧
      (normalize_token true ([195] : List Nat)).getD 0 0 =
        ([195] : List Nat).getD 0 0) ∧
    tokenize lower_state cafe_bytes = [cafe_bytes] :=
  ⟨spec_c9_utf8_safety.1 TextTokenizer.init 195 (by decide) (by decide),
    spec_c9_utf8_safety.2.1 lower_state cafe_bytes (by decide) (by decide)
      cafe_bytes (by decide),
    ⟨(spec_c9_utf8_safety.2.2.1 [195]).1,
      (spec_c9_utf8_safety.2.2.1 [195]).2 0 (by decide)⟩,
    spec_c9_utf8_safety.2.2.2⟩

end MecanikDev
